import Mathlib

/-!
Shallow embedding of `transform.go`: a program that reads a CSV of labeled
email records, randomly partitions them into training / testing / learning
subsets, and writes the subsets as indented JSON files, the learning subset
split into size-bounded chunk files.

Machine integers of the source are modelled as `Nat`; the CSV input is
modelled as its already-tokenized rows (`List (List String)`); file writes
are modelled as the list of (name, content) pairs the program produces;
`encoding/json`'s `MarshalIndent` (two-space indent, HTML escaping on) is
modelled byte-for-byte as a Lean `String` builder, and a file's byte size
is the UTF-8 byte size of that string.
-/

/-- `EmailRecord` of the source: the full-view JSON record shape. -/
structure EmailRecord where
  ID : String
  Email : String
  Result : Bool
deriving DecidableEq, Inhabited

/-- `TrainingEmailRecord` of the source: the training email-view shape. -/
structure TrainingEmailRecord where
  ID : String
  Email : String
deriving DecidableEq, Inhabited

/-- `TrainingResultRecord` of the source: the training label-view shape. -/
structure TrainingResultRecord where
  ID : String
  Result : Bool
deriving DecidableEq, Inhabited

/-- Go error values relevant to `ReadCSV`.  `errFieldCount` is the sentinel
`csv.ErrFieldCount`; `parseError e` is a `*csv.ParseError` wrapping `e`
(which is what `csv.Reader.Read` actually returns on a wrong field count);
`indexOutOfRange` stands for a Go panic on out-of-range slice indexing. -/
inductive GoError where
  | errFieldCount : GoError
  | parseError : GoError → GoError
  | indexOutOfRange : GoError
  | other : String → GoError
deriving DecidableEq

/-- Lower-case hex digit, as used by `encoding/json`'s `\u00xx` escapes. -/
def hexDigitChar (n : Nat) : Char :=
  if n < 10 then Char.ofNat (48 + n) else Char.ofNat (87 + n)

/-- Escape of a single character in a JSON string literal, following Go's
`encoding/json` encoder with its default HTML escaping: `"` and `\` get a
backslash, `\n`, `\r`, `\t` are named escapes, `<`, `>`, `&` and the
remaining control characters become `\u00xx`, U+2028/U+2029 become
` `/` `, everything else is emitted verbatim. -/
def jsonEscapeChar (c : Char) : String :=
  if c = '"' then "\\\""
  else if c = '\\' then "\\\\"
  else if c = '\n' then "\\n"
  else if c = '\r' then "\\r"
  else if c = '\t' then "\\t"
  else if c = '<' ∨ c = '>' ∨ c = '&' then
    String.mk ['\\', 'u', '0', '0', hexDigitChar (c.toNat / 16), hexDigitChar (c.toNat % 16)]
  else if c.toNat < 32 then
    String.mk ['\\', 'u', '0', '0', hexDigitChar (c.toNat / 16), hexDigitChar (c.toNat % 16)]
  else if c.toNat = 0x2028 ∨ c.toNat = 0x2029 then
    String.mk ['\\', 'u', '2', '0', '2', hexDigitChar (c.toNat % 16)]
  else String.singleton c

/-- A JSON string literal: quotes around the escaped characters. -/
def jsonQuote (s : String) : String :=
  "\"" ++ String.join (s.data.map jsonEscapeChar) ++ "\""

/-- JSON boolean literal. -/
def jsonBool (b : Bool) : String := if b then "true" else "false"

/-- One `EmailRecord` as an element of a `MarshalIndent`ed array (prefix "",
indent two spaces): the object sits at one indent level, its fields at two. -/
def recordJSONObject (r : EmailRecord) : String :=
  "  \x7b\n    \"id\": " ++ jsonQuote r.ID ++ ",\n    \"email\": " ++ jsonQuote r.Email
    ++ ",\n    \"phish\": " ++ jsonBool r.Result ++ "\n  \x7d"

/-- `json.MarshalIndent(rs, "", "  ")` for a non-nil slice of `EmailRecord`:
an empty slice marshals to `[]`, a nonempty one to a multi-line array. -/
def marshalIndentRecords (rs : List EmailRecord) : String :=
  match rs with
  | [] => "[]"
  | _ => "[\n" ++ String.intercalate ",\n" (rs.map recordJSONObject) ++ "\n]"

/-- One `TrainingEmailRecord` as an indented JSON array element. -/
def trainingEmailJSONObject (r : TrainingEmailRecord) : String :=
  "  \x7b\n    \"id\": " ++ jsonQuote r.ID ++ ",\n    \"email\": " ++ jsonQuote r.Email
    ++ "\n  \x7d"

/-- One `TrainingResultRecord` as an indented JSON array element. -/
def trainingResultJSONObject (r : TrainingResultRecord) : String :=
  "  \x7b\n    \"id\": " ++ jsonQuote r.ID ++ ",\n    \"phish\": " ++ jsonBool r.Result
    ++ "\n  \x7d"

/-- A Go slice value: `none` is the nil slice, `some l` a non-nil slice
holding `l`.  `json.MarshalIndent` maps nil to `null` and a non-nil empty
slice to `[]`, so the distinction is observable in the output files. -/
def GoSlice (α : Type) : Type := Option (List α)

/-- Go's `append` on a slice: appending to nil allocates. -/
def goAppend {α : Type} (s : GoSlice α) (a : α) : GoSlice α :=
  some (s.getD [] ++ [a])

/-- `MarshalIndent` of a possibly-nil slice of `EmailRecord`. -/
def marshalIndentGoSliceRecords : GoSlice EmailRecord → String
  | none => "null"
  | some rs => marshalIndentRecords rs

/-- `MarshalIndent` of a possibly-nil slice of `TrainingEmailRecord`. -/
def marshalIndentGoSliceTrainingEmails : GoSlice TrainingEmailRecord → String
  | none => "null"
  | some [] => "[]"
  | some rs => "[\n" ++ String.intercalate ",\n" (rs.map trainingEmailJSONObject) ++ "\n]"

/-- `MarshalIndent` of a possibly-nil slice of `TrainingResultRecord`. -/
def marshalIndentGoSliceTrainingResults : GoSlice TrainingResultRecord → String
  | none => "null"
  | some [] => "[]"
  | some rs => "[\n" ++ String.intercalate ",\n" (rs.map trainingResultJSONObject) ++ "\n]"

/-- Modelled from the spec (§4.1): the record the loader is meant to build
from one data row — identifier and email verbatim from columns 0 and 1,
label true exactly when column 2 equals the positive label string. -/
def specRecordOfRow (row : List String) : EmailRecord :=
  { ID := row.getD 0 "", Email := row.getD 1 "", Result := row.getD 2 "" == "Phishing Email" }

/-- The record-reading loop of `ReadCSV`.  `expected` is the reader's
`FieldsPerRecord`, fixed by the header row.  A row of the wrong width makes
`csv.Reader.Read` return `GoError.parseError .errFieldCount`; the source
compares that error with `==` against the sentinel `csv.ErrFieldCount`,
and on any other read error breaks out of the loop, returning the records
accumulated so far. -/
def readRecords (expected : Nat) : List (List String) → List EmailRecord →
    Except GoError (List EmailRecord)
  | [], acc => .ok acc.reverse
  | row :: rest, acc =>
    if row.length = expected then
      match row with
      | c0 :: c1 :: c2 :: _ =>
        readRecords expected rest ({ ID := c0, Email := c1, Result := c2 == "Phishing Email" } :: acc)
      | _ => .error .indexOutOfRange
    else
      if (GoError.parseError .errFieldCount) = GoError.errFieldCount then
        .error (.other "error reading csv record")
      else
        .ok acc.reverse

/-- `ReadCSV` on the tokenized rows of the file: the first row is the
header (its read failing at end of input is a fatal error); its width
becomes the reader's `FieldsPerRecord`. -/
def ReadCSV (rows : List (List String)) : Except GoError (List EmailRecord) :=
  match rows with
  | [] => .error (.other "unable to read csv header")
  | header :: rest => readRecords header.length rest []

/-- Go slice expression `l[s:e]`. -/
def listSlice {α : Type} (l : List α) (s e : Nat) : List α :=
  (l.drop s).take (e - s)

/-- The inner loop of `SplitAndWriteJSON`, in fuel-counted form: starting
with the candidate end index `endIdx`, it counts how many further records
are accepted into the chunk.  A record is accepted while the serialized
candidate `records[startIdx:endIdx+1]` does not exceed `maxSize` bytes.
`fuel ≥ records.length - endIdx` makes the count exact. -/
def growChunkExtraAux (records : List EmailRecord) (maxSize startIdx : Nat) :
    Nat → Nat → Nat
  | 0, _ => 0
  | fuel + 1, endIdx =>
    if endIdx < records.length then
      if maxSize < (marshalIndentRecords (listSlice records startIdx (endIdx + 1))).utf8ByteSize then
        0
      else
        growChunkExtraAux records maxSize startIdx fuel (endIdx + 1) + 1
    else 0

/-- The value of `endIdx` after the inner loop of `SplitAndWriteJSON`,
starting from `startIdx`. -/
def growChunk (records : List EmailRecord) (maxSize startIdx : Nat) : Nat :=
  startIdx + growChunkExtraAux records maxSize startIdx (records.length - startIdx) startIdx

/-- The outer loop of `SplitAndWriteJSON`, in fuel-counted form: it emits
`(chunkNum, records[startIdx:endIdx])` pairs, where `endIdx` comes from the
inner loop, bumped past `startIdx` when not even one record fits ("if we
can't even fit one record, we must write it anyways").
`fuel ≥ records.length - startIdx` makes the loop run to completion. -/
def splitLoopAux (records : List EmailRecord) (maxSize : Nat) :
    Nat → Nat → Nat → List (Nat × List EmailRecord)
  | 0, _, _ => []
  | fuel + 1, chunkNum, startIdx =>
    if startIdx < records.length then
      let grown := growChunk records maxSize startIdx
      let endIdx := if startIdx = grown then grown + 1 else grown
      (chunkNum, listSlice records startIdx endIdx) ::
        splitLoopAux records maxSize fuel (chunkNum + 1) endIdx
    else []

/-- The chunk sequence produced by `SplitAndWriteJSON`: chunk numbers start
at `chunkNum`, record scanning starts at `startIdx` (the source starts them
at 1 and 0). -/
def splitLoop (records : List EmailRecord) (maxSize chunkNum startIdx : Nat) :
    List (Nat × List EmailRecord) :=
  splitLoopAux records maxSize (records.length - startIdx) chunkNum startIdx

/-- `fmt.Sprintf("%s_%d.json", fileNamePrefix, chunkNum)`. -/
def chunkFileName (stem : String) (chunkNum : Nat) : String :=
  stem ++ "_" ++ Nat.repr chunkNum ++ ".json"

/-- `SplitAndWriteJSON`: the list of (file name, file content) writes it
performs, one per chunk, with `maxSize = maxSizeKB * 1024` bytes. -/
def SplitAndWriteJSON (stem : String) (records : List EmailRecord) (maxSizeKB : Nat) :
    List (String × String) :=
  (splitLoop records (maxSizeKB * 1024) 1 0).map
    (fun p => (chunkFileName stem p.1, marshalIndentRecords p.2))

/-- `contains` of the source: linear membership scan. -/
def contains (slice : List Nat) (i : Nat) : Bool :=
  match slice with
  | [] => false
  | v :: rest => if v = i then true else contains rest i

/-- The classifying loop of `SplitData`: record `i` goes to the training
set if its index is among `trainIndices`, else to the testing set if among
`testIndices`, else to the learning set, each set keeping original order. -/
def partitionRecords (trainIndices testIndices : List Nat) :
    Nat → List EmailRecord → List EmailRecord × List EmailRecord × List EmailRecord
  | _, [] => ([], [], [])
  | i, record :: rest =>
    let p := partitionRecords trainIndices testIndices (i + 1) rest
    if contains trainIndices i then (record :: p.1, p.2.1, p.2.2)
    else if contains testIndices i then (p.1, record :: p.2.1, p.2.2)
    else (p.1, p.2.1, record :: p.2.2)

/-- `SplitData`: `randomIndices` stands for the permutation drawn from the
process-local PRNG (`prng.Perm(totalCount)`); the first `trainCount` of its
entries select the training set, the next `testCount` the testing set. -/
def SplitData (records : List EmailRecord) (trainCount testCount : Nat)
    (randomIndices : List Nat) :
    Except String (List EmailRecord × List EmailRecord × List EmailRecord) :=
  let totalCount := records.length
  if totalCount ≤ trainCount + testCount then
    .error "training count and testing count is greater than or equal to the total records"
  else
    let trainIndices := randomIndices.take trainCount
    let testIndices := (randomIndices.drop trainCount).take testCount
    .ok (partitionRecords trainIndices testIndices 0 records)

/-- Step 3 of `main`: the email view of the training set, accumulated by
`append` into a slice declared `var trainEmailSet []TrainingEmailRecord`,
which therefore stays nil when the training set is empty. -/
def buildTrainEmailSet (trainSet : List EmailRecord) : GoSlice TrainingEmailRecord :=
  trainSet.foldl (fun acc record => goAppend acc { ID := record.ID, Email := record.Email }) none

/-- Step 4 of `main`: the label view of the training set, likewise starting
from a nil slice. -/
def buildTrainResultSet (trainSet : List EmailRecord) : GoSlice TrainingResultRecord :=
  trainSet.foldl (fun acc record => goAppend acc { ID := record.ID, Result := record.Result }) none

/-- The content of `Phishing_Training_Data.json` as a function of the
training set. -/
def mainTrainEmailJSON (trainSet : List EmailRecord) : String :=
  marshalIndentGoSliceTrainingEmails (buildTrainEmailSet trainSet)

/-- The content of `Phishing_Training_Result.json` as a function of the
training set. -/
def mainTrainResultJSON (trainSet : List EmailRecord) : String :=
  marshalIndentGoSliceTrainingResults (buildTrainResultSet trainSet)

/-- The content of `Phishing_Testing_Data.json`: `SplitData` builds the
testing set with `make([]EmailRecord, 0, testCount)`, so the marshaled
slice is non-nil even when empty. -/
def mainTestJSON (testSet : List EmailRecord) : String :=
  marshalIndentGoSliceRecords (some testSet)

/-- Sample records for the greedy-chunking example of the spec: each record
serializes to exactly 500 bytes, so two records fit a 1 KB chunk (1006
bytes) but three do not (1508 bytes). -/
def c8Email : String := String.mk (List.replicate 442 'a')

/-- Five records for the 2–2–1 greedy chunking example. -/
def c8Records : List EmailRecord :=
  [⟨"1", c8Email, false⟩, ⟨"2", c8Email, false⟩, ⟨"3", c8Email, false⟩,
   ⟨"4", c8Email, false⟩, ⟨"5", c8Email, false⟩]

/-- The tokenized CSV input exhibiting the malformed-row behavior of
`ReadCSV`: a header, a well-formed row, a two-column row, and a further
well-formed row. -/
def c3Rows : List (List String) :=
  [["id", "email", "label"], ["a", "b", "Phishing Email"], ["x", "y"], ["c", "d", "Safe Email"]]

/-- A single small record used to witness the chunk-size bound. -/
def w1Rec : EmailRecord := ⟨"w1", "x", true⟩

/-- A single small record used to witness that chunks are never empty. -/
def w9Rec : EmailRecord := ⟨"w9", "y", false⟩

/-- Three records used to exercise `SplitData` concretely. -/
def c4Records : List EmailRecord := [⟨"a", "x", true⟩, ⟨"b", "y", false⟩, ⟨"c", "z", false⟩]

theorem contains_eq_true_iff (l : List Nat) (i : Nat) : contains l i = true ↔ i ∈ l := by
  induction l with
  | nil => simp [contains]
  | cons v rest ih =>
    by_cases hv : v = i
    · subst hv; simp [contains]
    · simp [contains, hv, ih, List.mem_cons]
      intro h
      exact absurd h.symm hv

theorem contains_eq_false_iff (l : List Nat) (i : Nat) : contains l i = false ↔ i ∉ l := by
  rw [← contains_eq_true_iff l i, Bool.not_eq_true]

theorem growChunkExtraAux_le (records : List EmailRecord) (m s : Nat) :
    ∀ (fuel e : Nat), e ≤ records.length →
      e + growChunkExtraAux records m s fuel e ≤ records.length := by
  intro fuel
  induction fuel with
  | zero => intro e he; simpa [growChunkExtraAux] using he
  | succ fuel ih =>
    intro e he
    simp only [growChunkExtraAux]
    split
    · split
      · simpa using he
      · have h1 := ih (e + 1) (by omega)
        omega
    · simpa using he

theorem growChunkExtraAux_fits (records : List EmailRecord) (m s : Nat) :
    ∀ (fuel e : Nat), 0 < growChunkExtraAux records m s fuel e →
      (marshalIndentRecords
        (listSlice records s (e + growChunkExtraAux records m s fuel e))).utf8ByteSize ≤ m := by
  intro fuel
  induction fuel with
  | zero => intro e h; simp [growChunkExtraAux] at h
  | succ fuel ih =>
    intro e h
    simp only [growChunkExtraAux] at h ⊢
    split at h
    case isTrue hlt =>
      split at h
      case isTrue hsz => simp at h
      case isFalse hsz =>
        rw [if_pos hlt, if_neg hsz]
        rcases Nat.eq_zero_or_pos (growChunkExtraAux records m s fuel (e + 1)) with h0 | hpos
        · rw [h0]
          have : e + (0 + 1) = e + 1 := by omega
          rw [this]
          exact Nat.le_of_not_lt hsz
        · have hrec := ih (e + 1) hpos
          have harith : e + (growChunkExtraAux records m s fuel (e + 1) + 1)
              = (e + 1) + growChunkExtraAux records m s fuel (e + 1) := by omega
          rw [harith]
          exact hrec
    case isFalse hge => simp at h

theorem listSlice_length (l : List EmailRecord) (s e : Nat) :
    (listSlice l s e).length = min (e - s) (l.length - s) := by
  simp [listSlice]

theorem listSlice_ne_nil {l : List EmailRecord} {s e : Nat} (hs : s < l.length) (hse : s < e) :
    listSlice l s e ≠ [] := by
  have h := listSlice_length l s e
  intro hnil
  rw [hnil] at h
  simp at h
  omega

theorem listSlice_one_length {l : List EmailRecord} {s : Nat} (hs : s < l.length) :
    (listSlice l s (s + 1)).length = 1 := by
  rw [listSlice_length]
  omega

theorem splitLoopAux_facts (records : List EmailRecord) (m : Nat) :
    ∀ (fuel chunkNum startIdx : Nat), ∀ p ∈ splitLoopAux records m fuel chunkNum startIdx,
      p.2 ≠ [] ∧ ((marshalIndentRecords p.2).utf8ByteSize ≤ m ∨ p.2.length = 1) := by
  intro fuel
  induction fuel with
  | zero => intro n s p hp; simp [splitLoopAux] at hp
  | succ fuel ih =>
    intro n s p hp
    simp only [splitLoopAux] at hp
    by_cases hlt : s < records.length
    · rw [if_pos hlt] at hp
      by_cases hsg : s = growChunk records m s
      · rw [if_pos hsg] at hp
        rcases List.mem_cons.mp hp with rfl | hp'
        · refine ⟨?_, Or.inr ?_⟩
          · rw [← hsg]
            exact listSlice_ne_nil hlt (by omega)
          · rw [← hsg]
            exact listSlice_one_length hlt
        · exact ih _ _ p hp'
      · rw [if_neg hsg] at hp
        rcases List.mem_cons.mp hp with rfl | hp'
        · have hpos : 0 < growChunkExtraAux records m s (records.length - s) s := by
            simp only [growChunk] at hsg
            omega
          refine ⟨?_, Or.inl ?_⟩
          · exact listSlice_ne_nil hlt (by simp only [growChunk]; omega)
          · exact growChunkExtraAux_fits records m s (records.length - s) s hpos
        · exact ih _ _ p hp'
    · rw [if_neg hlt] at hp
      simp at hp

theorem splitLoopAux_flatten (records : List EmailRecord) (m : Nat) :
    ∀ (fuel chunkNum startIdx : Nat), records.length - startIdx ≤ fuel →
      ((splitLoopAux records m fuel chunkNum startIdx).map Prod.snd).flatten
        = records.drop startIdx := by
  intro fuel
  induction fuel with
  | zero =>
    intro n s hf
    rw [List.drop_eq_nil_of_le (by omega)]
    simp [splitLoopAux]
  | succ fuel ih =>
    intro n s hf
    simp only [splitLoopAux]
    by_cases hlt : s < records.length
    · rw [if_pos hlt]
      have hkey : ∀ e : Nat, s < e →
          listSlice records s e ++ records.drop e = records.drop s := by
        intro e hse
        have hdd : records.drop e = (records.drop s).drop (e - s) := by
          rw [List.drop_drop]
          congr 1
          omega
        rw [listSlice, hdd, List.take_append_drop]
      by_cases hsg : s = growChunk records m s
      · rw [if_pos hsg]
        simp only [List.map_cons, List.flatten_cons]
        rw [ih _ (growChunk records m s + 1) (by simp only [growChunk] at hsg ⊢; omega)]
        rw [← hsg]
        exact hkey (s + 1) (by omega)
      · rw [if_neg hsg]
        have hgt : s < growChunk records m s := by
          simp only [growChunk] at hsg ⊢
          omega
        simp only [List.map_cons, List.flatten_cons]
        rw [ih _ (growChunk records m s) (by omega)]
        exact hkey _ hgt
    · rw [if_neg hlt]
      rw [List.drop_eq_nil_of_le (by omega)]
      simp

theorem splitLoopAux_nums (records : List EmailRecord) (m : Nat) :
    ∀ (fuel chunkNum startIdx : Nat),
      (splitLoopAux records m fuel chunkNum startIdx).map Prod.fst
        = List.range' chunkNum (splitLoopAux records m fuel chunkNum startIdx).length := by
  intro fuel
  induction fuel with
  | zero => intro n s; simp [splitLoopAux]
  | succ fuel ih =>
    intro n s
    simp only [splitLoopAux]
    split
    · simp only [List.map_cons, List.length_cons, List.range'_succ]
      congr 1
      exact ih _ _
    · simp

/-- Claim C1: every chunk file produced by the chunked write has serialized
byte size at most `maxSizeKB * 1024`, except when the chunk holds exactly
one record whose own serialized form alone exceeds that maximum; that
record is still written alone in its own file. -/
theorem splitAndWriteJSON_size_bound (stem : String) (records : List EmailRecord)
    (maxSizeKB : Nat) (f : String × String) (hf : f ∈ SplitAndWriteJSON stem records maxSizeKB) :
    f.2.utf8ByteSize ≤ maxSizeKB * 1024 ∨
      ∃ r : EmailRecord, f.2 = marshalIndentRecords [r] ∧
        maxSizeKB * 1024 < (marshalIndentRecords [r]).utf8ByteSize := by
  simp only [SplitAndWriteJSON, List.mem_map] at hf
  obtain ⟨p, hp, rfl⟩ := hf
  simp only [splitLoop] at hp
  obtain ⟨hne, hfacts⟩ := splitLoopAux_facts records (maxSizeKB * 1024) _ _ _ p hp
  rcases hfacts with hsz | hlen
  · exact Or.inl hsz
  · by_cases hle : (marshalIndentRecords p.2).utf8ByteSize ≤ maxSizeKB * 1024
    · exact Or.inl hle
    · obtain ⟨r, hr⟩ := List.length_eq_one.mp hlen
      refine Or.inr ⟨r, by rw [hr], ?_⟩
      rw [← hr]
      omega

/-- Witness for C1 at a concrete input: one small record, 1 KB limit. -/
theorem splitAndWriteJSON_size_bound_witness :
    ((chunkFileName "w" 1, marshalIndentRecords [w1Rec]) ∈ SplitAndWriteJSON "w" [w1Rec] 1) ∧
    ((chunkFileName "w" 1, marshalIndentRecords [w1Rec]).2.utf8ByteSize ≤ 1 * 1024 ∨
      ∃ r : EmailRecord,
        (chunkFileName "w" 1, marshalIndentRecords [w1Rec]).2 = marshalIndentRecords [r] ∧
        1 * 1024 < (marshalIndentRecords [r]).utf8ByteSize) :=
  ⟨by decide, splitAndWriteJSON_size_bound "w" [w1Rec] 1 _ (by decide)⟩

/-- Claim C2: the chunked write numbers its files 1, 2, … with no gaps, and
the concatenation of the chunks' record arrays in chunk-number order equals
the input sequence exactly. -/
theorem splitAndWriteJSON_numbering_complete (stem : String) (records : List EmailRecord)
    (maxSizeKB : Nat) :
    SplitAndWriteJSON stem records maxSizeKB
      = (splitLoop records (maxSizeKB * 1024) 1 0).map
          (fun p => (chunkFileName stem p.1, marshalIndentRecords p.2)) ∧
    (splitLoop records (maxSizeKB * 1024) 1 0).map Prod.fst
      = List.range' 1 (splitLoop records (maxSizeKB * 1024) 1 0).length ∧
    ((splitLoop records (maxSizeKB * 1024) 1 0).map Prod.snd).flatten = records := by
  refine ⟨rfl, ?_, ?_⟩
  · simp only [splitLoop]
    exact splitLoopAux_nums records (maxSizeKB * 1024) _ 1 0
  · simp only [splitLoop]
    have h := splitLoopAux_flatten records (maxSizeKB * 1024) (records.length - 0) 1 0 (by omega)
    simpa using h

/-- Claim C3 is refuted by the code: `csv.Reader.Read` reports a wrong
field count as a `*csv.ParseError` wrapping `csv.ErrFieldCount`, so the
source's `recordReadErr == csv.ErrFieldCount` comparison never holds and a
malformed data row silently ends the loop: `ReadCSV` returns the records
read so far with no error, dropping the malformed row and every row after
it. -/
theorem readCSV_malformed_row_not_fatal :
    ReadCSV c3Rows = .ok [{ ID := "a", Email := "b", Result := true }] := rfl

/-- Claim C7: on well-formed three-column input every data row becomes a
record with identifier and email taken verbatim from columns 0 and 1 and
label true exactly when column 2 is the positive label string; no error is
raised for unrecognized label strings. -/
theorem readCSV_verbatim_fields (header : List String) (rows : List (List String))
    (hh : header.length = 3) (hr : ∀ row ∈ rows, row.length = 3) :
    ReadCSV (header :: rows) = .ok (rows.map specRecordOfRow) := by
  have main : ∀ (rows' : List (List String)) (acc : List EmailRecord),
      (∀ row ∈ rows', row.length = 3) →
      readRecords 3 rows' acc = .ok (acc.reverse ++ rows'.map specRecordOfRow) := by
    intro rows'
    induction rows' with
    | nil => intro acc _; simp [readRecords]
    | cons row rest ih =>
      intro acc hr'
      have h3 : row.length = 3 := hr' row (List.mem_cons_self row rest)
      obtain ⟨c0, c1, c2, rfl⟩ := List.length_eq_three.mp h3
      simp only [readRecords, h3, if_pos]
      rw [ih _ (fun r hrr => hr' r (List.mem_cons_of_mem _ hrr))]
      simp [specRecordOfRow]
  rw [ReadCSV, hh]
  simpa using main rows [] hr

/-- Witness for C7: a two-row input, the second row carrying an
unrecognized label string that maps to the negative class. -/
theorem readCSV_verbatim_fields_witness :
    ReadCSV [["id", "email", "label"], ["7", "hello", "Phishing Email"], ["8", "bye", "Weird Label"]]
      = .ok [⟨"7", "hello", true⟩, ⟨"8", "bye", false⟩] :=
  (readCSV_verbatim_fields ["id", "email", "label"]
    [["7", "hello", "Phishing Email"], ["8", "bye", "Weird Label"]]
    (by decide) (by decide)).trans rfl

set_option maxRecDepth 100000 in
/-- Claim C8: with five 500-byte records and a 1 KB limit, exactly two
records (but not three) fit per chunk, and the chunked write produces
exactly three files with record counts 2, 2, 1 (greedy fill). -/
theorem splitAndWriteJSON_greedy_2_2_1 :
    (marshalIndentRecords (c8Records.take 2)).utf8ByteSize ≤ 1 * 1024 ∧
    1 * 1024 < (marshalIndentRecords (c8Records.take 3)).utf8ByteSize ∧
    (SplitAndWriteJSON "Phishing_Learning_Data" c8Records 1).length = 3 ∧
    (splitLoop c8Records (1 * 1024) 1 0).map (fun p => p.2.length) = [2, 2, 1] := by
  refine ⟨by decide, by decide, by decide, by decide⟩

/-- Claim C9: the chunked write emits no file at all for an empty input,
and no chunk it ever writes is empty. -/
theorem splitAndWriteJSON_no_empty_chunks (stem : String) (maxSizeKB : Nat) :
    SplitAndWriteJSON stem [] maxSizeKB = [] ∧
    ∀ (records : List EmailRecord) (p : Nat × List EmailRecord),
      p ∈ splitLoop records (maxSizeKB * 1024) 1 0 → p.2 ≠ [] := by
  refine ⟨rfl, ?_⟩
  intro records p hp
  simp only [splitLoop] at hp
  exact (splitLoopAux_facts records (maxSizeKB * 1024) _ _ _ p hp).1

/-- Witness for C9: the one-record chunk of a singleton input is nonempty. -/
theorem splitAndWriteJSON_no_empty_chunks_witness :
    ((1, [w9Rec]) ∈ splitLoop [w9Rec] (1 * 1024) 1 0) ∧ ([w9Rec] ≠ []) :=
  ⟨by decide, (splitAndWriteJSON_no_empty_chunks "w" 1).2 [w9Rec] (1, [w9Rec]) (by decide)⟩

/-- Claim C10: an empty training set leaves the projected view slices nil,
so the training email-view and label-view files contain the JSON literal
`null`, while the empty (but allocated, non-nil) testing set marshals to
`[]`. -/
theorem main_nil_slice_marshals_null :
    mainTrainEmailJSON [] = "null" ∧ mainTrainResultJSON [] = "null" ∧
    buildTrainEmailSet [] = (none : GoSlice TrainingEmailRecord) ∧
    buildTrainResultSet [] = (none : GoSlice TrainingResultRecord) ∧
    mainTestJSON [] = "[]" :=
  ⟨rfl, rfl, rfl, rfl, rfl⟩


theorem mem_range'_lower {s n j : Nat} (h : j ∈ List.range' s n) : s ≤ j := by
  rw [List.mem_range'] at h
  obtain ⟨k, _, rfl⟩ := h
  omega

theorem mapGetD_shift (r : EmailRecord) (rest : List EmailRecord) (i : Nat) (js : List Nat)
    (h : ∀ j ∈ js, i + 1 ≤ j) :
    js.map (fun j => (r :: rest).getD (j - i) default)
      = js.map (fun j => rest.getD (j - (i + 1)) default) := by
  apply List.map_congr_left
  intro j hj
  have hij := h j hj
  have heq : j - i = (j - (i + 1)) + 1 := by omega
  rw [heq, List.getD_cons_succ]

theorem partitionRecords_eq (trI teI : List Nat) :
    ∀ (rs : List EmailRecord) (i : Nat),
      partitionRecords trI teI i rs =
        (((List.range' i rs.length).filter (fun j => contains trI j)).map
            (fun j => rs.getD (j - i) default),
          ((List.range' i rs.length).filter (fun j => !contains trI j && contains teI j)).map
            (fun j => rs.getD (j - i) default),
          ((List.range' i rs.length).filter (fun j => !contains trI j && !contains teI j)).map
            (fun j => rs.getD (j - i) default)) := by
  intro rs
  induction rs with
  | nil => intro i; simp [partitionRecords]
  | cons r rest ih =>
    intro i
    have hshift : ∀ P : Nat → Bool,
        ((List.range' (i + 1) rest.length).filter P).map
            (fun j => (r :: rest).getD (j - i) default)
          = ((List.range' (i + 1) rest.length).filter P).map
            (fun j => rest.getD (j - (i + 1)) default) := by
      intro P
      apply mapGetD_shift
      intro j hj
      exact mem_range'_lower (List.mem_filter.mp hj).1
    simp only [partitionRecords, ih (i + 1), List.length_cons, List.range'_succ, List.filter_cons]
    cases ha : contains trI i <;> cases hb : contains teI i <;>
      simp [ha, hb, Nat.sub_self, hshift] <;>
      refine ⟨?_, ?_, ?_⟩ <;>
        (intro a ha1 ha2
         intros
         have hsub : a - i = (a - (i + 1)) + 1 := by omega
         rw [hsub, List.getElem?_cons_succ])

theorem filter_contains_perm {sub : List Nat} {n : Nat} (hnd : sub.Nodup)
    (hsub : ∀ x ∈ sub, x < n) :
    ((List.range n).filter (fun j => contains sub j)).Perm sub := by
  refine (List.perm_ext_iff_of_nodup ((List.nodup_range n).filter _) hnd).mpr ?_
  intro x
  simp only [List.mem_filter, List.mem_range, contains_eq_true_iff]
  exact ⟨fun hx => hx.2, fun hx => ⟨hsub x hx, hx⟩⟩

theorem filter_second_perm {trI teI : List Nat} {n : Nat} (hnd : teI.Nodup)
    (hsub : ∀ x ∈ teI, x < n) (hdisj : ∀ x ∈ teI, x ∉ trI) :
    ((List.range n).filter (fun j => !contains trI j && contains teI j)).Perm teI := by
  refine (List.perm_ext_iff_of_nodup ((List.nodup_range n).filter _) hnd).mpr ?_
  intro x
  simp only [List.mem_filter, List.mem_range, Bool.and_eq_true, Bool.not_eq_true',
    contains_eq_true_iff, contains_eq_false_iff]
  constructor
  · exact fun hx => hx.2.2
  · intro hx
    exact ⟨hsub x hx, hdisj x hx, hx⟩

theorem three_filter_perm (pa pb : Nat → Bool) (l : List Nat) :
    (l.filter pa ++ (l.filter (fun j => !pa j && pb j)
      ++ l.filter (fun j => !pa j && !pb j))).Perm l := by
  have h1 := List.filter_append_perm pa l
  have h2 := List.filter_append_perm pb (l.filter (fun x => !pa x))
  rw [List.filter_filter, List.filter_filter] at h2
  have hc1 : (fun x => pb x && !pa x) = (fun j => !pa j && pb j) := by
    funext x; exact Bool.and_comm _ _
  have hc2 : (fun x => !pb x && !pa x) = (fun j => !pa j && !pb j) := by
    funext x; exact Bool.and_comm _ _
  rw [hc1, hc2] at h2
  exact (List.Perm.append_left (l.filter pa) h2).trans h1

theorem splitData_spec (records : List EmailRecord) (a b : Nat) (ri : List Nat)
    (hp : ri.Perm (List.range records.length)) (h : a + b < records.length) :
    ∃ tr te le, SplitData records a b ri = .ok (tr, te, le) ∧
      ∃ I J K : List Nat,
        (I ++ J ++ K).Perm (List.range records.length) ∧
        I.length = a ∧ J.length = b ∧ K.length = records.length - a - b ∧
        tr = I.map (fun j => records.getD j default) ∧
        te = J.map (fun j => records.getD j default) ∧
        le = K.map (fun j => records.getD j default) := by
  have hok : SplitData records a b ri
      = .ok (partitionRecords (ri.take a) ((ri.drop a).take b) 0 records) := by
    simp only [SplitData]
    rw [if_neg (by omega)]
  rw [partitionRecords_eq (ri.take a) ((ri.drop a).take b) records 0] at hok
  rw [← List.range_eq_range' records.length] at hok
  simp only [Nat.sub_zero] at hok
  have hlen : ri.length = records.length := by
    have := hp.length_eq
    simpa using this
  have hnd : ri.Nodup := hp.nodup_iff.mpr (List.nodup_range _)
  have hmem : ∀ x ∈ ri, x < records.length := fun x hx => List.mem_range.mp (hp.mem_iff.mp hx)
  have htrnd : (ri.take a).Nodup := (List.take_sublist a ri).nodup hnd
  have htend : ((ri.drop a).take b).Nodup :=
    ((List.take_sublist b (ri.drop a)).trans (List.drop_sublist a ri)).nodup hnd
  have htrmem : ∀ x ∈ ri.take a, x < records.length :=
    fun x hx => hmem x (List.take_subset a ri hx)
  have htemem : ∀ x ∈ (ri.drop a).take b, x < records.length :=
    fun x hx => hmem x (List.drop_subset a ri (List.take_subset b (ri.drop a) hx))
  have hdisj : ∀ x ∈ (ri.drop a).take b, x ∉ ri.take a := by
    intro x hx hx'
    exact List.disjoint_take_drop hnd (Nat.le_refl a) hx' (List.take_subset b (ri.drop a) hx)
  have hIperm := filter_contains_perm (n := records.length) htrnd htrmem
  have hJperm := filter_second_perm (n := records.length) htend htemem hdisj
  have htrlen : (ri.take a).length = a := by
    rw [List.length_take]; omega
  have htelen : ((ri.drop a).take b).length = b := by
    rw [List.length_take, List.length_drop]; omega
  have hbig : (((List.range records.length).filter (fun j => contains (ri.take a) j)
      ++ ((List.range records.length).filter
            (fun j => !contains (ri.take a) j && contains ((ri.drop a).take b) j)
          ++ (List.range records.length).filter
            (fun j => !contains (ri.take a) j && !contains ((ri.drop a).take b) j)))).Perm
        (List.range records.length) :=
    three_filter_perm (fun j => contains (ri.take a) j)
      (fun j => contains ((ri.drop a).take b) j) (List.range records.length)
  have hIlen : ((List.range records.length).filter
      (fun j => contains (ri.take a) j)).length = a :=
    hIperm.length_eq.trans htrlen
  have hJlen : ((List.range records.length).filter
      (fun j => !contains (ri.take a) j && contains ((ri.drop a).take b) j)).length = b :=
    hJperm.length_eq.trans htelen
  have hKlen : ((List.range records.length).filter
      (fun j => !contains (ri.take a) j && !contains ((ri.drop a).take b) j)).length
      = records.length - a - b := by
    have htot := hbig.length_eq
    simp only [List.length_append, List.length_range] at htot
    omega
  refine ⟨_, _, _, hok, _, _, _, ?_, hIlen, hJlen, hKlen, rfl, rfl, rfl⟩
  rw [List.append_assoc]
  exact hbig

/-- Claim C4: for non-negative counts with `trainCount + testCount` below
the record count, `SplitData` succeeds with exactly `trainCount` training
and `testCount` testing records, and the three subsets are selected by
three index lists that are pairwise disjoint and together exactly the full
record index set (their concatenation is a permutation of the index
range). -/
theorem splitData_partitions (records : List EmailRecord) (trainCount testCount : Nat)
    (ri : List Nat) (hp : ri.Perm (List.range records.length))
    (h : trainCount + testCount < records.length) :
    ∃ trainSet testSet learnSet,
      SplitData records trainCount testCount ri = .ok (trainSet, testSet, learnSet) ∧
      trainSet.length = trainCount ∧ testSet.length = testCount ∧
      ∃ I J K : List Nat,
        (I ++ J ++ K).Perm (List.range records.length) ∧
        I.length = trainCount ∧ J.length = testCount ∧
        trainSet = I.map (fun j => records.getD j default) ∧
        testSet = J.map (fun j => records.getD j default) ∧
        learnSet = K.map (fun j => records.getD j default) := by
  obtain ⟨tr, te, le, hok, I, J, K, hperm, hI, hJ, hK, htr, hte, hle⟩ :=
    splitData_spec records trainCount testCount ri hp h
  exact ⟨tr, te, le, hok, by rw [htr, List.length_map, hI], by rw [hte, List.length_map, hJ],
    I, J, K, hperm, hI, hJ, htr, hte, hle⟩

/-- Witness for C4: three records, one training and one testing record,
permutation `[2, 0, 1]`. -/
theorem splitData_partitions_witness :
    ∃ trainSet testSet learnSet,
      SplitData c4Records 1 1 [2, 0, 1] = .ok (trainSet, testSet, learnSet) ∧
      trainSet.length = 1 ∧ testSet.length = 1 ∧
      ∃ I J K : List Nat,
        (I ++ J ++ K).Perm (List.range c4Records.length) ∧
        I.length = 1 ∧ J.length = 1 ∧
        trainSet = I.map (fun j => c4Records.getD j default) ∧
        testSet = J.map (fun j => c4Records.getD j default) ∧
        learnSet = K.map (fun j => c4Records.getD j default) :=
  splitData_partitions c4Records 1 1 [2, 0, 1] (by decide) (by decide)

/-- Claim C5: `SplitData` fails exactly when `trainCount + testCount`
reaches the record count (equality included), and in the boundary case
`trainCount + testCount = total - 1` it succeeds with a learning subset of
size exactly one. -/
theorem splitData_insufficient (records : List EmailRecord) (a b : Nat) (ri : List Nat)
    (hp : ri.Perm (List.range records.length)) :
    ((∃ e, SplitData records a b ri = .error e) ↔ records.length ≤ a + b) ∧
    (a + b + 1 = records.length →
      ∃ tr te le, SplitData records a b ri = .ok (tr, te, le) ∧ le.length = 1) := by
  constructor
  · constructor
    · rintro ⟨e, he⟩
      by_contra hge
      rw [Nat.not_le] at hge
      obtain ⟨tr, te, le, hok, _⟩ := splitData_spec records a b ri hp hge
      rw [hok] at he
      exact Except.noConfusion he
    · intro hge
      refine ⟨"training count and testing count is greater than or equal to the total records", ?_⟩
      simp only [SplitData]
      rw [if_pos (by omega)]
  · intro hb
    obtain ⟨tr, te, le, hok, I, J, K, hperm, hI, hJ, hK, htr, hte, hle⟩ :=
      splitData_spec records a b ri hp (by omega)
    refine ⟨tr, te, le, hok, ?_⟩
    rw [hle, List.length_map, hK]
    omega

/-- Witness for C5: three records with `1 + 1 = 3 - 1`: success with a
singleton learning subset, and no error since `3 ≤ 2` is false. -/
theorem splitData_insufficient_witness :
    ((∃ e, SplitData c4Records 1 1 [1, 2, 0] = .error e) ↔ c4Records.length ≤ 1 + 1) ∧
    (1 + 1 + 1 = c4Records.length →
      ∃ tr te le, SplitData c4Records 1 1 [1, 2, 0] = .ok (tr, te, le) ∧ le.length = 1) :=
  splitData_insufficient c4Records 1 1 [1, 2, 0] (by decide)

theorem partitionRecords_sublists (trI teI : List Nat) :
    ∀ (rs : List EmailRecord) (i : Nat),
      (partitionRecords trI teI i rs).1.Sublist rs ∧
      (partitionRecords trI teI i rs).2.1.Sublist rs ∧
      (partitionRecords trI teI i rs).2.2.Sublist rs := by
  intro rs
  induction rs with
  | nil => intro i; simp [partitionRecords]
  | cons r rest ih =>
    intro i
    obtain ⟨h1, h2, h3⟩ := ih (i + 1)
    simp only [partitionRecords]
    by_cases ha : contains trI i
    · rw [if_pos ha]
      exact ⟨List.Sublist.cons₂ r h1, List.Sublist.cons r h2, List.Sublist.cons r h3⟩
    · rw [if_neg ha]
      by_cases hb : contains teI i
      · rw [if_pos hb]
        exact ⟨List.Sublist.cons r h1, List.Sublist.cons₂ r h2, List.Sublist.cons r h3⟩
      · rw [if_neg hb]
        exact ⟨List.Sublist.cons r h1, List.Sublist.cons r h2, List.Sublist.cons₂ r h3⟩

/-- Claim C6: each subset returned by `SplitData` lists its members in
their original relative order in the input (each is a sublist of the
input), whatever the drawn permutation selected. -/
theorem splitData_preserves_order (records : List EmailRecord) (a b : Nat) (ri : List Nat)
    (tr te le : List EmailRecord) (h : SplitData records a b ri = .ok (tr, te, le)) :
    tr.Sublist records ∧ te.Sublist records ∧ le.Sublist records := by
  simp only [SplitData] at h
  by_cases hc : records.length ≤ a + b
  · rw [if_pos hc] at h
    exact Except.noConfusion h
  · rw [if_neg hc] at h
    obtain ⟨htr, hte, hle⟩ :=
      partitionRecords_sublists (ri.take a) ((ri.drop a).take b) records 0
    injection h with h'
    rw [h'] at htr hte hle
    exact ⟨htr, hte, hle⟩

/-- Witness for C6: the concrete partition of three records under the
permutation `[2, 0, 1]` yields three singleton sublists of the input. -/
theorem splitData_preserves_order_witness :
    ([⟨"c", "z", false⟩] : List EmailRecord).Sublist c4Records ∧
    ([⟨"a", "x", true⟩] : List EmailRecord).Sublist c4Records ∧
    ([⟨"b", "y", false⟩] : List EmailRecord).Sublist c4Records :=
  splitData_preserves_order c4Records 1 1 [2, 0, 1] _ _ _ rfl
